import Mathlib

/-!
Shallow embedding of the core engines of the `peerfs` repository, and proofs
of the spec claims about them.

The embedding follows the Rust sources:
* `src/range.rs`   — auto-merging range vector (`RangeVec`);
* `src/proto.rs`   — wire packet codec (`Packet::read` / `Packet::write`);
* `src/pfs/file.rs`— partial file (`create` / `open` / `read` state machine);
* `src/host/mod.rs`— peer directory (`PeerStatus::upgrade`, `Peers::add`,
  `Peers::process_undefined_peers`, the dial phase of `Loop::tick`).

Machine integers (`u64`, `usize`, `i64`, `u16`, `u8`) are modelled as `Nat`
or `Int`; the element type of `RangeVec<T>` (used at `u64` and `i64`) is
modelled as `Int`, into which both order-embed.
-/

namespace Range

/-- Result of `slice::binary_search_by`: `found i` is Rust's `Ok(i)`,
`notFound i` is Rust's `Err(i)` (the insertion point). -/
inductive SearchResult where
  | found (idx : Nat)
  | notFound (idx : Nat)
deriving DecidableEq, Repr

/-- The loop of Rust's `slice::binary_search_by`: half-open search window
`[left, right)`, probing `mid = left + (right - left) / 2`.  The `while`
loop is driven by a fuel counter so that the function is structurally
recursive (hence computable by the kernel); `right - left` strictly
decreases each iteration, so any fuel above the initial window size is
enough, and `binarySearchBy` passes `data.length + 1`. -/
def binarySearchLoop {α : Type} [Inhabited α] (f : α → Ordering)
    (data : List α) : Nat → Nat → Nat → SearchResult
  | 0, left, _right => .notFound left
  | fuel+1, left, right =>
    if left < right then
      match f (data.getD (left + (right - left) / 2) default) with
      | .lt => binarySearchLoop f data fuel (left + (right - left) / 2 + 1) right
      | .gt => binarySearchLoop f data fuel left (left + (right - left) / 2)
      | .eq => .found (left + (right - left) / 2)
    else
      .notFound left

/-- Rust's `slice::binary_search_by` on the whole slice. -/
def binarySearchBy {α : Type} [Inhabited α] (f : α → Ordering) (data : List α) :
    SearchResult :=
  binarySearchLoop f data (data.length + 1) 0 data.length

/-- The comparator of `binary_search_by_key(&key, |&(from, _)| from)`:
compare the entry's `from` against the searched key. -/
def fromKeyCmp (key : Int) (p : Int × Int) : Ordering :=
  compare p.1 key

/-- The forward-merging `while let` loop of `RangeVec::push` (src/range.rs
lines 101-117).  State: current `to`, `check_idx`, `insert`, `drain_idx`;
returns their final values.  Like `binarySearchLoop`, the loop is driven
by a fuel counter (each iteration advances `check_idx`, so any fuel above
`data.length - check_idx` is enough; `push` passes `data.length + 1`). -/
def mergeLoop (data : List (Int × Int)) :
    Nat → Int → Nat → Bool → Nat → Int × Nat × Bool × Nat
  | 0, t, checkIdx, insert, drainIdx => (t, checkIdx, insert, drainIdx)
  | fuel+1, t, checkIdx, insert, drainIdx =>
    match data[checkIdx]? with
    | none => (t, checkIdx, insert, drainIdx)
    | some (checkFrom, checkTo) =>
      if t < checkFrom then
        (t, checkIdx, insert, drainIdx)
      else
        -- `if we intersect with the next range, ensure that our range will
        -- not reduce the current one`: `to` becomes `max to check_to`
        if insert then
          mergeLoop data fuel (if t < checkTo then checkTo else t)
            (checkIdx + 1) false (drainIdx + 1)
        else
          mergeLoop data fuel (if t < checkTo then checkTo else t)
            (checkIdx + 1) insert drainIdx

/-- `RangeVec::push` (src/range.rs lines 40-131), on the underlying vector.
The source `assert!(to > from)` is modelled by the `f < t` hypothesis of the
theorems below; the function itself is total.

The Rust code computes `(insert, work_idx, check_idx, from, to)` from the
binary search, runs the merge loop, drains `drain_idx..check_idx`, then
either inserts `(from, to)` at `work_idx` or overwrites entry `work_idx`. -/
def push (data : List (Int × Int)) (f t : Int) : List (Int × Int) :=
  -- (insert, work_idx, check_idx, from, to) after the binary-search match
  let st : Bool × Nat × Nat × Int × Int :=
    match binarySearchBy (fromKeyCmp f) data with
    | .found foundIdx =>
      let foundTo := (data.getD foundIdx (0, 0)).2
      (false, foundIdx, foundIdx + 1, f, if t < foundTo then foundTo else t)
    | .notFound insertIdx =>
      match insertIdx with
      | 0 => (true, insertIdx, insertIdx, f, t)
      | prevIndex + 1 =>
        let prev := data.getD prevIndex (0, 0)
        if f ≤ prev.2 then
          (false, prevIndex, insertIdx, prev.1, if t < prev.2 then prev.2 else t)
        else
          (true, insertIdx, insertIdx, f, t)
  let insert0 := st.1
  let workIdx := st.2.1
  let checkIdx0 := st.2.2.1
  let f' := st.2.2.2.1
  let t0 := st.2.2.2.2
  let res := mergeLoop data (data.length + 1) t0 checkIdx0 insert0 checkIdx0
  let t' := res.1
  let checkIdx' := res.2.1
  let insert' := res.2.2.1
  let drainIdx' := res.2.2.2
  -- `self.data.drain(drain_idx..check_idx)` (only when `check_idx > drain_idx`)
  let drained :=
    if drainIdx' < checkIdx' then data.take drainIdx' ++ data.drop checkIdx'
    else data
  if insert' then
    drained.take workIdx ++ (f', t') :: drained.drop workIdx
  else
    drained.set workIdx (f', t')

/-- `RangeVec::get_ranges` (src/range.rs lines 133-136): the raw slice. -/
def getRanges (data : List (Int × Int)) : List (Int × Int) := data

/-- The comparator closure of `RangeVec::contains` (src/range.rs 138-148). -/
def containsCmp (value : Int) (p : Int × Int) : Ordering :=
  if value < p.1 then .gt
  else if value ≥ p.2 then .lt
  else .eq

/-- `RangeVec::contains` (src/range.rs lines 138-148). -/
def contains (data : List (Int × Int)) (value : Int) : Bool :=
  match binarySearchBy (containsCmp value) data with
  | .found _ => true
  | .notFound _ => false

/-- Folding a sequence of pushes into an initially empty `RangeVec`
(`RangeVec::new`). -/
def pushAll (pushes : List (Int × Int)) : List (Int × Int) :=
  pushes.foldl (fun d p => push d p.1 p.2) []

/-! Entry access used throughout the proofs: `entry l i` is `l[i]` with a
junk default, matching the `getD` calls in the definitions above. -/

def entry (l : List (Int × Int)) (i : Nat) : Int × Int := l.getD i (0, 0)

theorem entry_eq_getElem (l : List (Int × Int)) (i : Nat) (h : i < l.length) :
    entry l i = l[i] :=
  List.getD_eq_getElem l (0, 0) h

/-- The invariant of `RangeVec`: every entry is a nonempty interval, and the
entries are pairwise strictly separated (sorted, disjoint, non-adjacent). -/
def Inv (l : List (Int × Int)) : Prop :=
  (∀ p ∈ l, p.1 < p.2) ∧ l.Pairwise (fun p q => p.2 < q.1)

instance : DecidablePred Inv := fun l =>
  inferInstanceAs (Decidable ((∀ p ∈ l, p.1 < p.2) ∧ l.Pairwise _))

/-- `v` lies in the union of the half-open intervals of `l`. -/
def covers (l : List (Int × Int)) (v : Int) : Prop :=
  ∃ p ∈ l, p.1 ≤ v ∧ v < p.2

instance (l : List (Int × Int)) (v : Int) : Decidable (covers l v) :=
  inferInstanceAs (Decidable (∃ p ∈ l, _ ∧ _))

theorem Inv.bounds {l : List (Int × Int)} (h : Inv l) {i : Nat}
    (hi : i < l.length) : (entry l i).1 < (entry l i).2 := by
  rw [entry_eq_getElem l i hi]
  exact h.1 _ (l.getElem_mem hi)

theorem Inv.sep {l : List (Int × Int)} (h : Inv l) {i j : Nat}
    (hij : i < j) (hj : j < l.length) : (entry l i).2 < (entry l j).1 := by
  rw [entry_eq_getElem l i (lt_trans hij hj), entry_eq_getElem l j hj]
  exact List.pairwise_iff_getElem.mp h.2 i j (lt_trans hij hj) hj hij

theorem Inv.from_lt_from {l : List (Int × Int)} (h : Inv l) {i j : Nat}
    (hij : i < j) (hj : j < l.length) : (entry l i).1 < (entry l j).1 :=
  lt_trans (h.bounds (lt_trans hij hj)) (h.sep hij hj)

theorem Inv.to_lt_to {l : List (Int × Int)} (h : Inv l) {i j : Nat}
    (hij : i < j) (hj : j < l.length) : (entry l i).2 < (entry l j).2 :=
  lt_trans (h.sep hij hj) (h.bounds hj)

/-- A comparator is sorted over the list when, once it stops answering `lt`,
all later entries answer `gt` — the shape `binary_search_by` requires. -/
def CmpSorted {α : Type} [Inhabited α] (f : α → Ordering) (data : List α) : Prop :=
  ∀ i j, i < j → j < data.length →
    f (data.getD i default) ≠ .lt → f (data.getD j default) = .gt

theorem binarySearchLoop_spec {α : Type} [Inhabited α] (f : α → Ordering)
    (data : List α) (hcs : CmpSorted f data) :
    ∀ fuel left right, right - left ≤ fuel → left ≤ right → right ≤ data.length →
    (∀ j, j < left → f (data.getD j default) = .lt) →
    (∀ j, right ≤ j → j < data.length → f (data.getD j default) = .gt) →
    (∃ i, binarySearchLoop f data fuel left right = .found i ∧
      i < data.length ∧ f (data.getD i default) = .eq) ∨
    (∃ i, binarySearchLoop f data fuel left right = .notFound i ∧ i ≤ data.length ∧
      (∀ j, j < i → f (data.getD j default) = .lt) ∧
      (∀ j, i ≤ j → j < data.length → f (data.getD j default) = .gt)) := by
  intro fuel
  induction fuel with
  | zero =>
    intro left right hfuel hlr hlen hlo hhi
    rw [binarySearchLoop]
    right
    refine ⟨left, rfl, by omega, hlo, fun j hj hjlen => hhi j (by omega) hjlen⟩
  | succ n ih =>
    intro left right hfuel hlr hlen hlo hhi
    rw [binarySearchLoop]
    by_cases hlr' : left < right
    · rw [if_pos hlr']
      have hmid1 : left ≤ left + (right - left) / 2 := by omega
      have hmid2 : left + (right - left) / 2 < right := by omega
      have hmidlen : left + (right - left) / 2 < data.length := by omega
      rcases hcmp : f (data.getD (left + (right - left) / 2) default) with _ | _ | _
      · -- .lt : recurse on [mid+1, right)
        refine ih (left + (right - left) / 2 + 1) right (by omega) (by omega) hlen ?_ hhi
        intro j hj
        by_cases hjm : j < left + (right - left) / 2
        · by_contra hne
          have := hcs j (left + (right - left) / 2) hjm hmidlen hne
          rw [hcmp] at this
          exact Ordering.noConfusion this
        · have : j = left + (right - left) / 2 := by omega
          rw [this]; exact hcmp
      · -- .eq : found
        left
        exact ⟨left + (right - left) / 2, rfl, hmidlen, hcmp⟩
      · -- .gt : recurse on [left, mid)
        refine ih left (left + (right - left) / 2) (by omega) (by omega) (by omega) hlo ?_
        intro j hj hjlen
        by_cases hjm : left + (right - left) / 2 < j
        · exact hcs (left + (right - left) / 2) j hjm hjlen (by rw [hcmp]; simp)
        · have : j = left + (right - left) / 2 := by omega
          rw [this]; exact hcmp
    · rw [if_neg hlr']
      right
      refine ⟨left, rfl, by omega, hlo, fun j hj hjlen => hhi j (by omega) hjlen⟩

theorem binarySearchBy_found {α : Type} [Inhabited α] {f : α → Ordering}
    {data : List α} (hcs : CmpSorted f data) {i : Nat}
    (h : binarySearchBy f data = .found i) :
    i < data.length ∧ f (data.getD i default) = .eq := by
  rcases binarySearchLoop_spec f data hcs (data.length + 1) 0 data.length
      (by omega) (by omega) le_rfl (fun j hj => absurd hj (by omega))
      (fun j h1 h2 => absurd (lt_of_le_of_lt h1 h2) (lt_irrefl _)) with
    ⟨i', hi', hlen, heq⟩ | ⟨i', hi', _, _, _⟩
  · rw [binarySearchBy] at h
    rw [h] at hi'
    cases hi'
    exact ⟨hlen, heq⟩
  · rw [binarySearchBy] at h
    rw [h] at hi'
    exact SearchResult.noConfusion hi'

theorem binarySearchBy_notFound {α : Type} [Inhabited α] {f : α → Ordering}
    {data : List α} (hcs : CmpSorted f data) {i : Nat}
    (h : binarySearchBy f data = .notFound i) :
    i ≤ data.length ∧ (∀ j, j < i → f (data.getD j default) = .lt) ∧
      (∀ j, i ≤ j → j < data.length → f (data.getD j default) = .gt) := by
  rcases binarySearchLoop_spec f data hcs (data.length + 1) 0 data.length
      (by omega) (by omega) le_rfl (fun j hj => absurd hj (by omega))
      (fun j h1 h2 => absurd (lt_of_le_of_lt h1 h2) (lt_irrefl _)) with
    ⟨i', hi', _, _⟩ | ⟨i', hi', hle, hlo, hhi⟩
  · rw [binarySearchBy] at h
    rw [h] at hi'
    exact SearchResult.noConfusion hi'
  · rw [binarySearchBy] at h
    rw [h] at hi'
    cases hi'
    exact ⟨hle, hlo, hhi⟩

/-- Full characterisation of the merge loop of `push` under the `RangeVec`
invariant.  Writing `(T, C, I, D)` for the final `(to, check_idx, insert,
drain_idx)`: `C` is the first index at or past `checkIdx` whose entry starts
strictly beyond the incoming `t` (no cascading happens because entries are
separated); `T` extends `t` to the last absorbed entry's end; `I` survives
only if nothing was absorbed; `D` is bumped once iff `I` was consumed. -/
theorem mergeLoop_spec (data : List (Int × Int)) (hinv : Inv data) :
    ∀ fuel c t ins d, data.length - c ≤ fuel → c ≤ data.length →
    c ≤ (mergeLoop data fuel t c ins d).2.1 ∧
    (mergeLoop data fuel t c ins d).2.1 ≤ data.length ∧
    (∀ j, c ≤ j → j < (mergeLoop data fuel t c ins d).2.1 → (entry data j).1 ≤ t) ∧
    ((mergeLoop data fuel t c ins d).2.1 < data.length →
      t < (entry data (mergeLoop data fuel t c ins d).2.1).1) ∧
    ((mergeLoop data fuel t c ins d).1 =
      if (mergeLoop data fuel t c ins d).2.1 = c then t
      else max t (entry data ((mergeLoop data fuel t c ins d).2.1 - 1)).2) ∧
    ((mergeLoop data fuel t c ins d).2.2.1 =
      (ins && ((mergeLoop data fuel t c ins d).2.1 == c))) ∧
    ((mergeLoop data fuel t c ins d).2.2.2 =
      if ins = true ∧ c < (mergeLoop data fuel t c ins d).2.1 then d + 1 else d) := by
  intro fuel
  induction fuel with
  | zero =>
    intro c t ins d hfuel hclen
    have hc : data.length ≤ c := by omega
    rw [mergeLoop]
    refine ⟨le_rfl, hclen, ?_, ?_, by simp, by simp, by simp⟩
    · exact fun j h1 h2 => absurd (lt_of_le_of_lt h1 h2) (lt_irrefl _)
    · intro h; exact absurd (lt_of_le_of_lt hc h) (lt_irrefl _)
  | succ n ih =>
    intro c t ins d hfuel hclen
    rcases hc : data[c]? with _ | ⟨cf, ct⟩
    · have hcl : data.length ≤ c := by
        by_contra h
        rw [List.getElem?_eq_getElem (by omega)] at hc
        exact Option.noConfusion hc
      rw [mergeLoop, hc]
      dsimp only
      refine ⟨le_rfl, hclen, ?_, ?_, by simp, by simp, by simp⟩
      · exact fun j h1 h2 => absurd (lt_of_le_of_lt h1 h2) (lt_irrefl _)
      · intro h; exact absurd (lt_of_le_of_lt hcl h) (lt_irrefl _)
    · have hclt : c < data.length := by
        by_contra h
        rw [List.getElem?_eq_none (by omega)] at hc
        exact Option.noConfusion hc
      have hent : entry data c = (cf, ct) := by
        rw [entry_eq_getElem data c hclt]
        rw [List.getElem?_eq_getElem hclt] at hc
        exact Option.some.inj hc
      rw [mergeLoop, hc]
      dsimp only
      by_cases hstop : t < cf
      · rw [if_pos hstop]
        refine ⟨le_rfl, hclen, ?_, ?_, by simp, by simp, by simp⟩
        · exact fun j h1 h2 => absurd (lt_of_le_of_lt h1 h2) (lt_irrefl _)
        · intro _; rw [hent]; exact hstop
      · rw [if_neg hstop]
        have htct : (if t < ct then ct else t) = max t ct := by
          split
          · exact (max_eq_right (le_of_lt (by assumption))).symm
          · exact (max_eq_left (by omega)).symm
        -- separation: every later entry starts strictly beyond `ct`
        have hsepc : ∀ j, c + 1 ≤ j → j < data.length → ct < (entry data j).1 := by
          intro j h1 h2
          have := hinv.sep (show c < j by omega) h2
          rw [hent] at this
          exact this
        -- both branches recurse at `c+1` with `t` extended to `max t ct`;
        -- characterise that recursive call once
        have main : ∀ ins' d',
            c + 1 ≤ (mergeLoop data n (if t < ct then ct else t) (c+1) ins' d').2.1 ∧
            (mergeLoop data n (if t < ct then ct else t) (c+1) ins' d').2.1 ≤ data.length ∧
            (∀ j, c ≤ j → j < (mergeLoop data n (if t < ct then ct else t) (c+1) ins' d').2.1 →
              (entry data j).1 ≤ t) ∧
            ((mergeLoop data n (if t < ct then ct else t) (c+1) ins' d').2.1 < data.length →
              t < (entry data (mergeLoop data n (if t < ct then ct else t) (c+1) ins' d').2.1).1) ∧
            ((mergeLoop data n (if t < ct then ct else t) (c+1) ins' d').1 =
              if (mergeLoop data n (if t < ct then ct else t) (c+1) ins' d').2.1 = c then t
              else max t (entry data
                ((mergeLoop data n (if t < ct then ct else t) (c+1) ins' d').2.1 - 1)).2) ∧
            ((mergeLoop data n (if t < ct then ct else t) (c+1) ins' d').2.2.1 =
              (ins' && ((mergeLoop data n (if t < ct then ct else t) (c+1) ins' d').2.1 == c+1))) ∧
            ((mergeLoop data n (if t < ct then ct else t) (c+1) ins' d').2.2.2 =
              if ins' = true ∧ c + 1 < (mergeLoop data n (if t < ct then ct else t) (c+1) ins' d').2.1
              then d' + 1 else d') := by
          intro ins' d'
          obtain ⟨ih1, ih2, ih3, ih4, ih5, ih6, ih7⟩ :=
            ih (c+1) (if t < ct then ct else t) ins' d' (by omega) (by omega)
          rcases hm : mergeLoop data n (if t < ct then ct else t) (c+1) ins' d' with ⟨T, C, I, D⟩
          rw [hm] at ih1 ih2 ih3 ih4 ih5 ih6 ih7
          dsimp only at ih1 ih2 ih3 ih4 ih5 ih6 ih7 ⊢
          rw [htct] at ih3 ih4 ih5
          refine ⟨ih1, ih2, ?_, ?_, ?_, ih6, ih7⟩
          · intro j h1 h2
            rcases Nat.lt_or_ge j (c+1) with hj | hj
            · have hjc : j = c := by omega
              rw [hjc, hent]
              exact not_lt.mp hstop
            · have h3 := ih3 j hj h2
              have h4 := hsepc j hj (by omega)
              rcases le_max_iff.mp h3 with h | h
              · exact h
              · omega
          · intro hCl
            exact lt_of_le_of_lt (le_max_left t ct) (ih4 hCl)
          · by_cases hCc : C = c + 1
            · subst hCc
              rw [if_pos rfl] at ih5
              rw [ih5, if_neg (show ¬(c + 1 = c) by omega)]
              simp only [Nat.add_sub_cancel]
              rw [hent]
            · rw [if_neg hCc] at ih5
              have hC2 : c + 1 < C := by omega
              have hC1len : C - 1 < data.length := by omega
              have hcc1 : ct ≤ (entry data (C - 1)).2 := by
                have := hinv.to_lt_to (show c < C - 1 by omega) hC1len
                rw [hent] at this
                exact le_of_lt this
              rw [ih5, if_neg (show ¬(C = c) by omega), max_assoc, max_eq_right hcc1]
        rcases ins with _ | _
        · -- insert = false
          rw [if_neg (show ¬(false = true) from Bool.false_ne_true)]
          obtain ⟨m1, m2, m3, m4, m5, m6, m7⟩ := main false d
          rcases hm : mergeLoop data n (if t < ct then ct else t) (c+1) false d with ⟨T, C, I, D⟩
          rw [hm] at m1 m2 m3 m4 m5 m6 m7
          dsimp only at m1 m2 m3 m4 m5 m6 m7 ⊢
          refine ⟨by omega, m2, m3, m4, m5, ?_, ?_⟩
          · rw [m6]
            simp
          · rw [m7]
            simp
        · -- insert = true
          rw [if_pos rfl]
          obtain ⟨m1, m2, m3, m4, m5, m6, m7⟩ := main false (d+1)
          rcases hm : mergeLoop data n (if t < ct then ct else t) (c+1) false (d+1) with ⟨T, C, I, D⟩
          rw [hm] at m1 m2 m3 m4 m5 m6 m7
          dsimp only at m1 m2 m3 m4 m5 m6 m7 ⊢
          refine ⟨by omega, m2, m3, m4, m5, ?_, ?_⟩
          · rw [m6]
            have hne : (C == c) = false := by
              simp only [beq_eq_false_iff_ne]
              omega
            rw [hne]
            simp
          · rw [m7]
            rw [if_neg (show ¬(false = true ∧ c + 1 < C) by simp),
              if_pos (show true = true ∧ c < C from ⟨rfl, by omega⟩)]

/-! Helper lemmas about `covers` and index ranges. -/

theorem covers_iff_getElem {l : List (Int × Int)} {v : Int} :
    covers l v ↔ ∃ j, j < l.length ∧ (entry l j).1 ≤ v ∧ v < (entry l j).2 := by
  constructor
  · rintro ⟨p, hp, h1, h2⟩
    obtain ⟨j, hj, hje⟩ := List.mem_iff_getElem.mp hp
    exact ⟨j, hj, by rw [entry_eq_getElem l j hj, hje]; exact ⟨h1, h2⟩⟩
  · rintro ⟨j, hj, h1, h2⟩
    exact ⟨entry l j, by rw [entry_eq_getElem l j hj]; exact l.getElem_mem hj, h1, h2⟩

theorem covers_take_iff {l : List (Int × Int)} {w : Nat} {v : Int} :
    covers (l.take w) v ↔
      ∃ j, j < w ∧ j < l.length ∧ (entry l j).1 ≤ v ∧ v < (entry l j).2 := by
  rw [covers_iff_getElem]
  constructor
  · rintro ⟨j, hj, h1, h2⟩
    have hjl : j < l.length := by
      have := hj; rw [List.length_take] at this; omega
    have hjw : j < w := by
      have := hj; rw [List.length_take] at this; omega
    have he : entry (l.take w) j = entry l j := by
      rw [entry_eq_getElem _ j hj, entry_eq_getElem l j hjl, List.getElem_take]
    rw [he] at h1 h2
    exact ⟨j, hjw, hjl, h1, h2⟩
  · rintro ⟨j, hjw, hjl, h1, h2⟩
    have hj : j < (l.take w).length := by rw [List.length_take]; omega
    have he : entry (l.take w) j = entry l j := by
      rw [entry_eq_getElem _ j hj, entry_eq_getElem l j hjl, List.getElem_take]
    exact ⟨j, hj, by rw [he]; exact ⟨h1, h2⟩⟩

theorem covers_drop_iff {l : List (Int × Int)} {K : Nat} {v : Int} :
    covers (l.drop K) v ↔
      ∃ j, K ≤ j ∧ j < l.length ∧ (entry l j).1 ≤ v ∧ v < (entry l j).2 := by
  rw [covers_iff_getElem]
  constructor
  · rintro ⟨m, hm, h1, h2⟩
    have hml : K + m < l.length := by
      have := hm; rw [List.length_drop] at this; omega
    have he : entry (l.drop K) m = entry l (K + m) := by
      rw [entry_eq_getElem _ m hm, entry_eq_getElem l _ hml, List.getElem_drop]
    rw [he] at h1 h2
    exact ⟨K + m, by omega, hml, h1, h2⟩
  · rintro ⟨j, hKj, hjl, h1, h2⟩
    have hm : j - K < (l.drop K).length := by rw [List.length_drop]; omega
    have he : entry (l.drop K) (j - K) = entry l j := by
      rw [entry_eq_getElem _ _ hm, entry_eq_getElem l j hjl, List.getElem_drop]
      congr 1
      omega
    exact ⟨j - K, hm, by rw [he]; exact ⟨h1, h2⟩⟩

theorem covers_append {l1 l2 : List (Int × Int)} {v : Int} :
    covers (l1 ++ l2) v ↔ covers l1 v ∨ covers l2 v := by
  constructor
  · rintro ⟨p, hp, h⟩
    rcases List.mem_append.mp hp with hp | hp
    · exact Or.inl ⟨p, hp, h⟩
    · exact Or.inr ⟨p, hp, h⟩
  · rintro (⟨p, hp, h⟩ | ⟨p, hp, h⟩)
    · exact ⟨p, List.mem_append.mpr (Or.inl hp), h⟩
    · exact ⟨p, List.mem_append.mpr (Or.inr hp), h⟩

theorem covers_cons {p : Int × Int} {l : List (Int × Int)} {v : Int} :
    covers (p :: l) v ↔ (p.1 ≤ v ∧ v < p.2) ∨ covers l v := by
  constructor
  · rintro ⟨q, hq, h⟩
    rcases List.mem_cons.mp hq with rfl | hq
    · exact Or.inl h
    · exact Or.inr ⟨q, hq, h⟩
  · rintro (h | ⟨q, hq, h⟩)
    · exact ⟨p, List.mem_cons_self _ _, h⟩
    · exact ⟨q, List.mem_cons_of_mem _ hq, h⟩

/-- Decomposing membership in the union of a list's intervals along a split
`[0, w) / [w, K) / [K, len)` of its indices. -/
theorem covers_split {l : List (Int × Int)} {w K : Nat} {v : Int} :
    covers l v ↔
      covers (l.take w) v ∨
      (∃ j, w ≤ j ∧ j < K ∧ j < l.length ∧ (entry l j).1 ≤ v ∧ v < (entry l j).2) ∨
      covers (l.drop K) v := by
  rw [covers_take_iff, covers_drop_iff, covers_iff_getElem]
  constructor
  · rintro ⟨j, hj, h1, h2⟩
    rcases Nat.lt_or_ge j w with hjw | hjw
    · exact Or.inl ⟨j, hjw, hj, h1, h2⟩
    rcases Nat.lt_or_ge j K with hjK | hjK
    · exact Or.inr (Or.inl ⟨j, hjw, hjK, hj, h1, h2⟩)
    · exact Or.inr (Or.inr ⟨j, hjK, hj, h1, h2⟩)
  · rintro (⟨j, _, hj, h1, h2⟩ | ⟨j, _, _, hj, h1, h2⟩ | ⟨j, _, hj, h1, h2⟩) <;>
      exact ⟨j, hj, h1, h2⟩

/-- The result shape shared by all branches of `push`: prefix kept, a single
merged interval, suffix kept.  Its invariant. -/
theorem inv_splice {data : List (Int × Int)} (hinv : Inv data) {w K : Nat}
    {f' T : Int} (hK : K ≤ data.length) (hfT : f' < T)
    (hpre : ∀ j, j < w → j < data.length → (entry data j).2 < f')
    (hsuf : ∀ j, K ≤ j → j < data.length → T < (entry data j).1) :
    Inv (data.take w ++ (f', T) :: data.drop K) := by
  constructor
  · intro p hp
    rcases List.mem_append.mp hp with hp | hp
    · exact hinv.1 p ((List.take_sublist _ _).mem hp)
    · rcases List.mem_cons.mp hp with rfl | hp
      · exact hfT
      · exact hinv.1 p ((List.drop_sublist _ _).mem hp)
  · rw [List.pairwise_append]
    refine ⟨hinv.2.sublist (List.take_sublist _ _), ?_, ?_⟩
    · rw [List.pairwise_cons]
      refine ⟨?_, hinv.2.sublist (List.drop_sublist _ _)⟩
      intro q hq
      obtain ⟨m, hm, hme⟩ := List.mem_iff_getElem.mp hq
      have hml : K + m < data.length := by
        have := hm; rw [List.length_drop] at this; omega
      have : q = entry data (K + m) := by
        rw [entry_eq_getElem data _ hml, ← List.getElem_drop data, hme]
      rw [this]
      exact hsuf (K + m) (by omega) hml
    · intro a ha b hb
      obtain ⟨i, hi, hie⟩ := List.mem_iff_getElem.mp ha
      have hil : i < data.length := by
        have := hi; rw [List.length_take] at this; omega
      have hiw : i < w := by
        have := hi; rw [List.length_take] at this; omega
      have hae : a = entry data i := by
        rw [entry_eq_getElem data _ hil, ← List.getElem_take data, hie]
      have hato : a.2 < f' := by rw [hae]; exact hpre i hiw hil
      rcases List.mem_cons.mp hb with rfl | hb
      · exact hato
      · obtain ⟨m, hm, hme⟩ := List.mem_iff_getElem.mp hb
        have hml : K + m < data.length := by
          have := hm; rw [List.length_drop] at this; omega
        have hbe : b = entry data (K + m) := by
          rw [entry_eq_getElem data _ hml, ← List.getElem_drop data, hme]
        have : T < b.1 := by rw [hbe]; exact hsuf (K + m) (by omega) hml
        omega

/-- The drain-then-overwrite tail of `push` in non-insert mode produces the
splice shape. -/
theorem drained_set_eq (data : List (Int × Int)) (w K : Nat) (x : Int × Int)
    (hwlen : w < data.length) (hK : w + 1 ≤ K) (hKlen : K ≤ data.length) :
    (if w + 1 < K then data.take (w+1) ++ data.drop K else data).set w x =
      data.take w ++ x :: data.drop K := by
  by_cases h : w + 1 < K
  · rw [if_pos h, List.set_append,
      if_pos (by rw [List.length_take]; omega)]
    have hlt : (data.take (w+1)).length = w + 1 := by
      rw [List.length_take]; omega
    rw [List.set_eq_take_cons_drop x (by omega : w < (data.take (w+1)).length)]
    rw [List.take_take, List.drop_eq_nil_of_le (by omega)]
    have : w ⊓ (w + 1) = w := by omega
    rw [this, List.append_assoc]
    rfl
  · have hKe : K = w + 1 := by omega
    rw [if_neg h, hKe, List.set_eq_take_cons_drop x hwlen]

theorem cmpSorted_fromKey {data : List (Int × Int)} (hinv : Inv data) (f : Int) :
    CmpSorted (fromKeyCmp f) data := by
  intro i j hij hj hne
  have hdi : (data.getD i (default : Int × Int)) = entry data i := rfl
  have hdj : (data.getD j (default : Int × Int)) = entry data j := rfl
  rw [hdi] at hne
  rw [hdj]
  unfold fromKeyCmp at hne ⊢
  rw [compare_gt_iff_gt]
  have hij' := hinv.from_lt_from hij hj
  have : f ≤ (entry data i).1 := by
    by_contra h
    exact hne (compare_lt_iff_lt.mpr (by omega))
  omega

theorem found_fromKey {data : List (Int × Int)} (hinv : Inv data) {f : Int}
    {i : Nat} (h : binarySearchBy (fromKeyCmp f) data = .found i) :
    i < data.length ∧ (entry data i).1 = f := by
  obtain ⟨hlen, heq⟩ := binarySearchBy_found (cmpSorted_fromKey hinv f) h
  have hd : (data.getD i (default : Int × Int)) = entry data i := rfl
  rw [hd] at heq
  exact ⟨hlen, compare_eq_iff_eq.mp heq⟩

theorem notFound_fromKey {data : List (Int × Int)} (hinv : Inv data) {f : Int}
    {i : Nat} (h : binarySearchBy (fromKeyCmp f) data = .notFound i) :
    i ≤ data.length ∧ (∀ j, j < i → j < data.length → (entry data j).1 < f) ∧
      (∀ j, i ≤ j → j < data.length → f < (entry data j).1) := by
  obtain ⟨hle, hlo, hhi⟩ := binarySearchBy_notFound (cmpSorted_fromKey hinv f) h
  refine ⟨hle, ?_, ?_⟩
  · intro j hj hjl
    have := hlo j hj
    have hd : (data.getD j (default : Int × Int)) = entry data j := rfl
    rw [hd] at this
    exact compare_lt_iff_lt.mp this
  · intro j hj hjl
    have := hhi j hj hjl
    have hd : (data.getD j (default : Int × Int)) = entry data j := rfl
    rw [hd] at this
    exact compare_gt_iff_gt.mp this

/-- The non-insert continuation of `push` (an existing entry at `workIdx = w`
is extended in place): the binary search landed on `w` (`found`), or the new
range touched the preceding entry (`prev` fold-in). -/
theorem push_nonInsert (data : List (Int × Int)) (hinv : Inv data) (f t : Int)
    (hft : f < t) (w : Nat) (hw : w < data.length)
    (hwf : (entry data w).1 ≤ f) (hfw : f ≤ (entry data w).2)
    (f' T : Int) (C : Nat) (I : Bool) (D : Nat)
    (hf' : f' = (entry data w).1)
    (hm : mergeLoop data (data.length + 1)
      (if t < (entry data w).2 then (entry data w).2 else t)
      (w+1) false (w+1) = (T, C, I, D)) :
    Inv ((if D < C then data.take D ++ data.drop C else data).set w (f', T)) ∧
    ∀ v, covers ((if D < C then data.take D ++ data.drop C else data).set w (f', T)) v ↔
      covers data v ∨ (f ≤ v ∧ v < t) := by
  obtain ⟨s1, s2, s3, s4, s5, s6, s7⟩ :=
    mergeLoop_spec data hinv (data.length + 1) (w+1)
      (if t < (entry data w).2 then (entry data w).2 else t) false (w+1)
      (by omega) (by omega)
  rw [hm] at s1 s2 s3 s4 s5 s6 s7
  dsimp only at s1 s2 s3 s4 s5 s6 s7
  have hD : D = w + 1 := by rw [s7]; simp
  have htct : (if t < (entry data w).2 then (entry data w).2 else t)
      = max t (entry data w).2 := by
    split
    · exact (max_eq_right (le_of_lt (by assumption))).symm
    · exact (max_eq_left (by omega)).symm
  rw [htct] at s3 s4 s5
  have hres : (if D < C then data.take D ++ data.drop C else data).set w (f', T)
      = data.take w ++ (f', T) :: data.drop C := by
    rw [hD]
    exact drained_set_eq data w C _ hw s1 s2
  rw [hres]
  have hT_lb : max t (entry data w).2 ≤ T := by
    rw [s5]
    split
    · exact le_rfl
    · exact le_max_left _ _
  have hsuf : ∀ j, C ≤ j → j < data.length → T < (entry data j).1 := by
    intro j hCj hjl
    have hCl : C < data.length := Nat.lt_of_le_of_lt hCj hjl
    have h4 := s4 hCl
    have hfromCj : (entry data C).1 ≤ (entry data j).1 := by
      rcases eq_or_lt_of_le hCj with rfl | hlt
      · exact le_rfl
      · exact le_of_lt (hinv.from_lt_from hlt hjl)
    rw [s5]
    split
    · exact lt_of_lt_of_le h4 hfromCj
    · rename_i hCne
      have hC2 : w + 1 < C := by omega
      have hsep : (entry data (C-1)).2 < (entry data C).1 := hinv.sep (by omega) hCl
      exact max_lt (lt_of_lt_of_le h4 hfromCj)
        (lt_of_lt_of_le hsep hfromCj)
  have hpre : ∀ j, j < w → j < data.length → (entry data j).2 < f' := by
    intro j hjw hjl
    rw [hf']
    exact hinv.sep hjw hw
  have hfT : f' < T := by
    rw [hf']
    exact lt_of_lt_of_le (hinv.bounds hw) (le_trans (le_max_right _ _) hT_lb)
  refine ⟨inv_splice hinv s2 hfT hpre hsuf, ?_⟩
  intro v
  rw [covers_append, covers_cons, covers_split (l := data) (w := w) (K := C)]
  dsimp only
  constructor
  · rintro (h | h | h)
    · exact Or.inl (Or.inl h)
    · -- v lies in the merged interval [f', T)
      rw [hf'] at h
      by_cases hvw : v < (entry data w).2
      · exact Or.inl (Or.inr (Or.inl ⟨w, le_rfl, by omega, hw, h.1, hvw⟩))
      · by_cases hvt : v < t
        · exact Or.inr ⟨le_trans hfw (not_lt.mp hvw), hvt⟩
        · have hvt0 : max t (entry data w).2 ≤ v :=
            max_le (not_lt.mp hvt) (not_lt.mp hvw)
          have hC2 : ¬(C = w + 1) := by
            intro hCe
            rw [s5, if_pos hCe] at h
            exact absurd (lt_of_le_of_lt hvt0 h.2) (lt_irrefl _)
          rw [s5, if_neg hC2] at h
          have hC2' : w + 1 < C := by omega
          have hvC1 : v < (entry data (C-1)).2 := by
            rcases lt_max_iff.mp h.2 with h' | h'
            · exact absurd (lt_of_le_of_lt hvt0 h') (lt_irrefl _)
            · exact h'
          have h3 := s3 (C-1) (by omega) (by omega)
          exact Or.inl (Or.inr (Or.inl
            ⟨C-1, by omega, by omega, by omega, le_trans h3 hvt0, hvC1⟩))
    · exact Or.inl (Or.inr (Or.inr h))
  · rintro ((h | h | h) | h)
    · exact Or.inl h
    · -- an absorbed entry covers v, hence the merged interval does
      obtain ⟨j, hwj, hjC, hjl, h1, h2⟩ := h
      refine Or.inr (Or.inl ⟨?_, ?_⟩)
      · rw [hf']
        rcases eq_or_lt_of_le hwj with rfl | hlt
        · exact h1
        · exact le_trans (le_of_lt (hinv.from_lt_from hlt hjl)) h1
      · rcases eq_or_lt_of_le hwj with rfl | hlt
        · exact lt_of_lt_of_le h2 (le_trans (le_max_right _ _) hT_lb)
        · have hC2 : ¬(C = w + 1) := by omega
          rw [s5, if_neg hC2]
          have htoj : (entry data j).2 ≤ (entry data (C-1)).2 := by
            rcases eq_or_lt_of_le (show j ≤ C - 1 by omega) with rfl | hlt'
            · exact le_rfl
            · exact le_of_lt (hinv.to_lt_to hlt' (by omega))
          exact lt_of_lt_of_le h2 (le_trans htoj (le_max_right _ _))
    · exact Or.inr (Or.inr h)
    · -- v lies in the pushed interval [f, t)
      refine Or.inr (Or.inl ⟨?_, ?_⟩)
      · rw [hf']
        exact le_trans hwf h.1
      · exact lt_of_lt_of_le h.2 (le_trans (le_max_left _ _) hT_lb)

/-- The insert continuation of `push` (binary search reported insertion
point `w` and the preceding entry, if any, does not touch `[f, t)`). -/
theorem push_insert (data : List (Int × Int)) (hinv : Inv data) (f t : Int)
    (hft : f < t) (w : Nat) (hwlen : w ≤ data.length)
    (hpre : ∀ j, j < w → j < data.length → (entry data j).2 < f)
    (hsuf : ∀ j, w ≤ j → j < data.length → f < (entry data j).1)
    (T : Int) (C : Nat) (I : Bool) (D : Nat)
    (hm : mergeLoop data (data.length + 1) t w true w = (T, C, I, D)) :
    Inv (if I = true
      then (if D < C then data.take D ++ data.drop C else data).take w ++
        (f, T) :: (if D < C then data.take D ++ data.drop C else data).drop w
      else (if D < C then data.take D ++ data.drop C else data).set w (f, T)) ∧
    ∀ v, covers (if I = true
      then (if D < C then data.take D ++ data.drop C else data).take w ++
        (f, T) :: (if D < C then data.take D ++ data.drop C else data).drop w
      else (if D < C then data.take D ++ data.drop C else data).set w (f, T)) v ↔
      covers data v ∨ (f ≤ v ∧ v < t) := by
  obtain ⟨s1, s2, s3, s4, s5, s6, s7⟩ :=
    mergeLoop_spec data hinv (data.length + 1) w t true w (by omega) hwlen
  rw [hm] at s1 s2 s3 s4 s5 s6 s7
  dsimp only at s1 s2 s3 s4 s5 s6 s7
  by_cases hCw : C = w
  · -- nothing absorbed : a fresh entry (f, t) is inserted at w
    have hI : I = true := by rw [s6, hCw]; simp
    have hD : D = w := by rw [s7, hCw]; simp
    have hT : T = t := by rw [s5, if_pos hCw]
    have hnd : ¬(D < C) := by omega
    rw [hI, if_pos rfl, if_neg hnd, hT]
    have hsuft : ∀ j, w ≤ j → j < data.length → t < (entry data j).1 := by
      intro j hwj hjl
      have hwl : w < data.length := Nat.lt_of_le_of_lt hwj hjl
      have h4 := s4 (hCw ▸ hwl)
      rw [hCw] at h4
      rcases eq_or_lt_of_le hwj with rfl | hlt
      · exact h4
      · exact lt_trans h4 (hinv.from_lt_from hlt hjl)
    constructor
    · exact inv_splice hinv (K := w) hwlen hft hpre hsuft
    · intro v
      rw [covers_append, covers_cons, covers_split (l := data) (w := w) (K := w)]
      dsimp only
      constructor
      · rintro (h | h | h)
        · exact Or.inl (Or.inl h)
        · exact Or.inr h
        · exact Or.inl (Or.inr (Or.inr h))
      · rintro ((h | h | h) | h)
        · exact Or.inl h
        · omega
        · exact Or.inr (Or.inr h)
        · exact Or.inr (Or.inl h)
  · -- at least one entry absorbed : entry w is overwritten with (f, T)
    have hCgt : w < C := by omega
    have hI : I = false := by
      rw [s6]
      have : (C == w) = false := by
        simp only [beq_eq_false_iff_ne]
        omega
      rw [this]
      simp
    have hD : D = w + 1 := by rw [s7, if_pos ⟨rfl, hCgt⟩]
    have hT : T = max t (entry data (C-1)).2 := by rw [s5, if_neg hCw]
    have hwl : w < data.length := by
      -- index w itself was absorbed, so it is a valid index
      have := s3 w le_rfl hCgt
      omega
    rw [hI, if_neg Bool.false_ne_true, hD]
    rw [drained_set_eq data w C _ hwl (by omega) s2]
    have hT_lb : t ≤ T := by rw [hT]; exact le_max_left _ _
    have hsufT : ∀ j, C ≤ j → j < data.length → T < (entry data j).1 := by
      intro j hCj hjl
      have hCl : C < data.length := Nat.lt_of_le_of_lt hCj hjl
      have h4 := s4 hCl
      have hfromCj : (entry data C).1 ≤ (entry data j).1 := by
        rcases eq_or_lt_of_le hCj with rfl | hlt
        · exact le_rfl
        · exact le_of_lt (hinv.from_lt_from hlt hjl)
      rw [hT]
      exact max_lt (lt_of_lt_of_le h4 hfromCj)
        (lt_of_lt_of_le (hinv.sep (by omega) hCl) hfromCj)
    have hfT : f < T := lt_of_lt_of_le hft hT_lb
    refine ⟨inv_splice hinv s2 hfT hpre hsufT, ?_⟩
    intro v
    rw [covers_append, covers_cons, covers_split (l := data) (w := w) (K := C)]
    dsimp only
    constructor
    · rintro (h | h | h)
      · exact Or.inl (Or.inl h)
      · by_cases hvt : v < t
        · exact Or.inr ⟨h.1, hvt⟩
        · have hvC1 : v < (entry data (C-1)).2 := by
            rw [hT] at h
            rcases lt_max_iff.mp h.2 with h' | h'
            · exact absurd h' hvt
            · exact h'
          have h3 := s3 (C-1) (by omega) (by omega)
          exact Or.inl (Or.inr (Or.inl
            ⟨C-1, by omega, by omega, by omega, le_trans h3 (not_lt.mp hvt), hvC1⟩))
      · exact Or.inl (Or.inr (Or.inr h))
    · rintro ((h | h | h) | h)
      · exact Or.inl h
      · obtain ⟨j, hwj, hjC, hjl, h1, h2⟩ := h
        refine Or.inr (Or.inl ⟨le_trans (le_of_lt (hsuf j hwj hjl)) h1, ?_⟩)
        have htoj : (entry data j).2 ≤ (entry data (C-1)).2 := by
          rcases eq_or_lt_of_le (show j ≤ C - 1 by omega) with rfl | hlt'
          · exact le_rfl
          · exact le_of_lt (hinv.to_lt_to hlt' (by omega))
        rw [hT]
        exact lt_of_lt_of_le h2 (le_trans htoj (le_max_right _ _))
      · exact Or.inr (Or.inr h)
      · exact Or.inr (Or.inl ⟨h.1, lt_of_lt_of_le h.2 hT_lb⟩)

/-- One `push` preserves the `RangeVec` invariant and adds exactly `[f, t)`
to the union of the tracked intervals. -/
theorem push_step (data : List (Int × Int)) (hinv : Inv data) (f t : Int)
    (hft : f < t) :
    Inv (push data f t) ∧
    ∀ v, covers (push data f t) v ↔ covers data v ∨ (f ≤ v ∧ v < t) := by
  unfold push
  rcases hbs : binarySearchBy (fromKeyCmp f) data with ⟨fi⟩ | ⟨ii⟩
  · -- binary search found an entry whose `from` equals `f`
    obtain ⟨hw, hf⟩ := found_fromKey hinv hbs
    dsimp only
    rcases hm : mergeLoop data (data.length + 1)
        (if t < (data.getD fi (0, 0)).2 then (data.getD fi (0, 0)).2 else t)
        (fi+1) false (fi+1) with ⟨T, C, I, D⟩
    dsimp only
    have hI : I = false := by
      obtain ⟨_, _, _, _, _, s6, _⟩ :=
        mergeLoop_spec data hinv (data.length + 1) (fi+1)
          (if t < (data.getD fi (0, 0)).2 then (data.getD fi (0, 0)).2 else t)
          false (fi+1) (by omega) (by omega)
      rw [hm] at s6
      dsimp only at s6
      rw [s6]
      simp
    rw [hI, if_neg Bool.false_ne_true]
    exact push_nonInsert data hinv f t hft fi hw (le_of_eq hf)
      (hf ▸ le_of_lt (hinv.bounds hw)) f T C I D hf.symm hm
  · -- binary search reported insertion point `ii`
    obtain ⟨hii, hlo, hhi⟩ := notFound_fromKey hinv hbs
    rcases ii with _ | pi
    · -- insertion at the front
      dsimp only
      rcases hm : mergeLoop data (data.length + 1) t 0 true 0 with ⟨T, C, I, D⟩
      dsimp only
      exact push_insert data hinv f t hft 0 (by omega)
        (fun j hj _ => absurd hj (by omega))
        (fun j _ hjl => hhi j (by omega) hjl) T C I D hm
    · -- a preceding entry exists
      have hpilen : pi < data.length := by omega
      dsimp only
      by_cases hple : f ≤ (data.getD pi (0, 0)).2
      · -- the new range touches the previous entry : fold into it
        rw [if_pos hple]
        dsimp only
        rcases hm : mergeLoop data (data.length + 1)
            (if t < (data.getD pi (0, 0)).2 then (data.getD pi (0, 0)).2 else t)
            (pi+1) false (pi+1) with ⟨T, C, I, D⟩
        dsimp only
        have hI : I = false := by
          obtain ⟨_, _, _, _, _, s6, _⟩ :=
            mergeLoop_spec data hinv (data.length + 1) (pi+1)
              (if t < (data.getD pi (0, 0)).2 then (data.getD pi (0, 0)).2 else t)
              false (pi+1) (by omega) (by omega)
          rw [hm] at s6
          dsimp only at s6
          rw [s6]
          simp
        rw [hI, if_neg Bool.false_ne_true]
        exact push_nonInsert data hinv f t hft pi hpilen
          (le_of_lt (hlo pi (by omega) hpilen)) hple
          (data.getD pi (0, 0)).1 T C I D rfl hm
      · -- no touch : plain insertion at `pi+1`
        rw [if_neg hple]
        dsimp only
        rcases hm : mergeLoop data (data.length + 1) t (pi+1) true (pi+1) with ⟨T, C, I, D⟩
        dsimp only
        refine push_insert data hinv f t hft (pi+1) (by omega) ?_ ?_ T C I D hm
        · intro j hj hjl
          rcases eq_or_lt_of_le (show j ≤ pi by omega) with rfl | hlt
          · exact not_le.mp hple
          · exact lt_trans (hinv.to_lt_to hlt hpilen) (not_le.mp hple)
        · intro j hj hjl
          exact hhi j hj hjl

/-- Folding pushes from any invariant-satisfying accumulator. -/
theorem pushAll_go (pushes : List (Int × Int)) :
    ∀ acc, Inv acc → (∀ p ∈ pushes, p.1 < p.2) →
    Inv (pushes.foldl (fun d p => push d p.1 p.2) acc) ∧
    ∀ v, covers (pushes.foldl (fun d p => push d p.1 p.2) acc) v ↔
      covers acc v ∨ ∃ p ∈ pushes, p.1 ≤ v ∧ v < p.2 := by
  induction pushes with
  | nil =>
    intro acc hacc _
    exact ⟨hacc, fun v => by simp⟩
  | cons p ps ih =>
    intro acc hacc hvalid
    have hp : p.1 < p.2 := hvalid p (List.mem_cons_self _ _)
    rw [List.foldl_cons]
    obtain ⟨si, sc⟩ := push_step acc hacc p.1 p.2 hp
    obtain ⟨i1, i2⟩ := ih (push acc p.1 p.2) si
      (fun q hq => hvalid q (List.mem_cons_of_mem _ hq))
    refine ⟨i1, fun v => ?_⟩
    rw [i2 v, sc v]
    constructor
    · rintro ((h | h) | ⟨q, hq, hqv⟩)
      · exact Or.inl h
      · exact Or.inr ⟨p, List.mem_cons_self _ _, h⟩
      · exact Or.inr ⟨q, List.mem_cons_of_mem _ hq, hqv⟩
    · rintro (h | ⟨q, hq, hqv⟩)
      · exact Or.inl (Or.inl h)
      · rcases List.mem_cons.mp hq with rfl | hq
        · exact Or.inl (Or.inr hqv)
        · exact Or.inr ⟨q, hq, hqv⟩

theorem inv_nil : Inv [] :=
  ⟨fun p hp => absurd hp (List.not_mem_nil p), List.Pairwise.nil⟩

/-- Any sequence of valid pushes on an initially empty `RangeVec` yields the
invariant and the exact union of the pushed intervals. -/
theorem pushAll_spec (pushes : List (Int × Int))
    (hvalid : ∀ p ∈ pushes, p.1 < p.2) :
    Inv (pushAll pushes) ∧
    ∀ v, covers (pushAll pushes) v ↔ ∃ p ∈ pushes, p.1 ≤ v ∧ v < p.2 := by
  unfold pushAll
  obtain ⟨h1, h2⟩ := pushAll_go pushes [] inv_nil hvalid
  refine ⟨h1, fun v => ?_⟩
  rw [h2 v]
  simp [covers]

theorem cmpSorted_contains {data : List (Int × Int)} (hinv : Inv data)
    (v : Int) : CmpSorted (containsCmp v) data := by
  intro i j hij hj hne
  have hdi : (data.getD i (default : Int × Int)) = entry data i := rfl
  have hdj : (data.getD j (default : Int × Int)) = entry data j := rfl
  rw [hdi] at hne
  rw [hdj]
  unfold containsCmp at hne ⊢
  have hb := hinv.bounds (lt_trans hij hj)
  have hvi : v < (entry data i).2 := by
    by_contra h
    apply hne
    rw [if_neg (by omega), if_pos (by omega)]
  have := hinv.sep hij hj
  rw [if_pos (by omega)]

/-- `RangeVec::contains` decides membership in the union, under the
invariant. -/
theorem contains_iff {data : List (Int × Int)} (hinv : Inv data) (v : Int) :
    contains data v = true ↔ covers data v := by
  unfold contains
  rcases hbs : binarySearchBy (containsCmp v) data with ⟨i⟩ | ⟨i⟩
  · obtain ⟨hlen, heq⟩ := binarySearchBy_found (cmpSorted_contains hinv v) hbs
    have hd : (data.getD i (default : Int × Int)) = entry data i := rfl
    rw [hd] at heq
    unfold containsCmp at heq
    have h1 : ¬ v < (entry data i).1 := by
      intro h
      rw [if_pos h] at heq
      exact Ordering.noConfusion heq
    have h2 : ¬ v ≥ (entry data i).2 := by
      intro h
      rw [if_neg h1, if_pos h] at heq
      exact Ordering.noConfusion heq
    exact iff_of_true rfl (covers_iff_getElem.mpr ⟨i, hlen, by omega, by omega⟩)
  · obtain ⟨hle, hlo, hhi⟩ := binarySearchBy_notFound (cmpSorted_contains hinv v) hbs
    refine iff_of_false Bool.false_ne_true ?_
    intro hcov
    obtain ⟨j, hj, h1, h2⟩ := covers_iff_getElem.mp hcov
    have hd : (data.getD j (default : Int × Int)) = entry data j := rfl
    rcases Nat.lt_or_ge j i with hji | hji
    · have := hlo j hji
      rw [hd] at this
      unfold containsCmp at this
      rw [if_neg (by omega), if_neg (by omega)] at this
      exact Ordering.noConfusion this
    · have := hhi j hji hj
      rw [hd] at this
      unfold containsCmp at this
      rw [if_neg (by omega)] at this
      split at this
      · exact Ordering.noConfusion this
      · exact Ordering.noConfusion this

/-- C1: for every sequence of `push(from, to)` calls with `to > from` on an
initially empty `RangeVec`, `get_ranges()` is sorted strictly ascending by
start, its entries are nonempty, pairwise disjoint and non-adjacent (each
start strictly exceeds the previous end), and the union of the returned
half-open intervals equals the union of the pushed intervals. -/
theorem claim1_push_invariant (pushes : List (Int × Int))
    (hvalid : ∀ p ∈ pushes, p.1 < p.2) :
    (getRanges (pushAll pushes)).Pairwise (fun p q => p.1 < q.1) ∧
    (∀ p ∈ getRanges (pushAll pushes), p.1 < p.2) ∧
    (getRanges (pushAll pushes)).Pairwise (fun p q => p.2 < q.1) ∧
    (∀ v, covers (getRanges (pushAll pushes)) v ↔
      ∃ p ∈ pushes, p.1 ≤ v ∧ v < p.2) := by
  unfold getRanges
  obtain ⟨hinv, hcov⟩ := pushAll_spec pushes hvalid
  refine ⟨?_, hinv.1, hinv.2, hcov⟩
  rw [List.pairwise_iff_getElem]
  intro i j hi hj hij
  have := hinv.from_lt_from hij hj
  rw [entry_eq_getElem _ i (by omega), entry_eq_getElem _ j hj] at this
  exact this

/-- Witness for C1 at the pushes from the repository's unit test. -/
theorem claim1_witness :
    (∀ p ∈ ([(3,7),(8,13),(13,20)] : List (Int × Int)), p.1 < p.2) ∧
    (getRanges (pushAll ([(3,7),(8,13),(13,20)] : List (Int × Int)))).Pairwise
      (fun p q => p.2 < q.1) ∧
    (covers (getRanges (pushAll ([(3,7),(8,13),(13,20)] : List (Int × Int)))) 10 ↔
      ∃ p ∈ ([(3,7),(8,13),(13,20)] : List (Int × Int)), p.1 ≤ 10 ∧ 10 < p.2) :=
  ⟨by decide,
    (claim1_push_invariant _ (by decide)).2.2.1,
    (claim1_push_invariant _ (by decide)).2.2.2 10⟩

/-- C9: after any sequence of valid pushes, `contains(v)` returns `true`
exactly when `v` lies in some pushed interval; in particular `contains`
answers `true` at each resulting entry's lower bound and `false` at each
resulting entry's upper bound. -/
theorem claim9_contains (pushes : List (Int × Int))
    (hvalid : ∀ p ∈ pushes, p.1 < p.2) :
    (∀ v, contains (pushAll pushes) v = true ↔
      ∃ p ∈ pushes, p.1 ≤ v ∧ v < p.2) ∧
    (∀ p ∈ pushAll pushes,
      contains (pushAll pushes) p.1 = true ∧
      contains (pushAll pushes) p.2 = false) := by
  obtain ⟨hinv, hcov⟩ := pushAll_spec pushes hvalid
  refine ⟨fun v => by rw [contains_iff hinv v, hcov v], ?_⟩
  intro p hp
  obtain ⟨i, hi, hie⟩ := List.mem_iff_getElem.mp hp
  have hpe : p = entry (pushAll pushes) i := by
    rw [entry_eq_getElem _ i hi, hie]
  constructor
  · rw [contains_iff hinv]
    exact ⟨p, hp, le_rfl, hinv.1 p hp⟩
  · rw [← Bool.not_eq_true, contains_iff hinv]
    intro hcv
    obtain ⟨j, hj, h1, h2⟩ := covers_iff_getElem.mp hcv
    rcases Nat.lt_trichotomy i j with hij | rfl | hij
    · have := hinv.sep hij hj
      rw [← hpe] at this
      omega
    · rw [← hpe] at h1 h2
      omega
    · have hsep := hinv.sep hij hi
      have hb := hinv.bounds hj
      rw [← hpe] at hsep
      have hb2 := hinv.bounds hi
      rw [← hpe] at hb2
      omega

/-- Witness for C9 at the pushes from the repository's unit test. -/
theorem claim9_witness :
    (∀ p ∈ ([(3,7),(8,13),(13,20)] : List (Int × Int)), p.1 < p.2) ∧
    (contains (pushAll ([(3,7),(8,13),(13,20)] : List (Int × Int))) 10 = true ↔
      ∃ p ∈ ([(3,7),(8,13),(13,20)] : List (Int × Int)), p.1 ≤ 10 ∧ 10 < p.2) ∧
    (((8:Int), 20) ∈ pushAll ([(3,7),(8,13),(13,20)] : List (Int × Int)) →
      contains (pushAll ([(3,7),(8,13),(13,20)] : List (Int × Int))) 8 = true ∧
      contains (pushAll ([(3,7),(8,13),(13,20)] : List (Int × Int))) 20 = false) :=
  ⟨by decide,
    (claim9_contains _ (by decide)).1 10,
    (claim9_contains _ (by decide)).2 (8, 20)⟩

end Range

namespace Proto

/-- `std::net::IpAddr` restricted to what the codec touches: 4 octets for
V4, 16 octets (as a list) for V6. -/
inductive IpAddr where
  | v4 (a b c d : Nat)
  | v6 (octets : List Nat)
deriving DecidableEq

/-- `Packet` (src/proto.rs lines 29-104).  Only the discovery messages are
encodable; the channel/file/block messages are reserved (`Packet::write`
hits `unimplemented!()` on them, modelled as `none`). -/
inductive Packet where
  | rejected
  | peerIdentify (port : Nat)
  | peerDiscover (addr : IpAddr) (port : Nat)
  | channelOpen (requestId : Nat) (name : String)
  | channelHandle (requestId : Nat) (handle : Nat)
  | fileOpen (requestId : Nat) (channelHandle : Nat) (path : String)
  | fileHandle (requestId : Nat) (handle : Nat) (blockCount : Nat)
      (blockRanges : List (Nat × Nat))
  | fileHandleUpdate (handle : Nat) (blockCount : Nat)
      (blockRanges : List (Nat × Nat))
  | fileBlockGet (requestId : Nat) (handle : Nat) (index : Nat)
  | fileBlockData (requestId : Nat) (data : List Nat)
  | fileBlockChecksum (handle : Nat) (index : Nat) (checksum : Nat)
deriving DecidableEq

def ID_REJECTED : Nat := 0xF0
def ID_PEER_IDENTIFY : Nat := 0x01
def ID_PEER_DISCOVER_IPV4 : Nat := 0x02
def ID_PEER_DISCOVER_IPV6 : Nat := 0x03

/-- `write_u16::<BE>`: two big-endian bytes of a `u16`. -/
def writeU16BE (v : Nat) : List Nat :=
  [v / 256 % 256, v % 256]

/-- `read_u16::<BE>` from two bytes. -/
def readU16BE (b0 b1 : Nat) : Nat :=
  b0 * 256 + b1

/-- `Packet::write` (src/proto.rs lines 139-167), producing the byte
sequence; `none` models `unimplemented!()`.  NB: the V6 arm of the source
(line 156) writes `ID_PEER_DISCOVER_IPV4` even for a V6 address. -/
def Packet.write : Packet → Option (List Nat)
  | .rejected => some [ID_REJECTED]
  | .peerIdentify port => some (ID_PEER_IDENTIFY :: writeU16BE port)
  | .peerDiscover addr port =>
    match addr with
    | .v4 a b c d =>
      some (ID_PEER_DISCOVER_IPV4 :: [a, b, c, d] ++ writeU16BE port)
    | .v6 octets =>
      some (ID_PEER_DISCOVER_IPV4 :: octets ++ writeU16BE port)
  | _ => none

/-- `Packet::read` (src/proto.rs lines 108-137) from the front of a byte
stream; `none` models an I/O or invalid-data failure. -/
def Packet.read (bytes : List Nat) : Option Packet :=
  match bytes with
  | [] => none
  | id :: rest =>
    if id = ID_REJECTED then
      some .rejected
    else if id = ID_PEER_IDENTIFY then
      match rest with
      | b0 :: b1 :: _ => some (.peerIdentify (readU16BE b0 b1))
      | _ => none
    else if id = ID_PEER_DISCOVER_IPV4 then
      match rest with
      | o0 :: o1 :: o2 :: o3 :: b0 :: b1 :: _ =>
        some (.peerDiscover (.v4 o0 o1 o2 o3) (readU16BE b0 b1))
      | _ => none
    else if id = ID_PEER_DISCOVER_IPV6 then
      match rest with
      | o0 :: o1 :: o2 :: o3 :: o4 :: o5 :: o6 :: o7 :: o8 :: o9 :: o10 ::
          o11 :: o12 :: o13 :: o14 :: o15 :: b0 :: b1 :: _ =>
        some (.peerDiscover
          (.v6 [o0, o1, o2, o3, o4, o5, o6, o7, o8, o9, o10, o11, o12, o13, o14, o15])
          (readU16BE b0 b1))
      | _ => none
    else
      none

/-- C4: the wire codec does NOT round-trip on `PeerDiscover` with a V6
address: the V6 arm of `Packet::write` emits the IPv4 tag (src/proto.rs
line 156), so `Packet::read` decodes the first four address octets as an
IPv4 address and the next two as the port.  Evaluated at `[::1]:5000`:
the round trip returns `PeerDiscover{0.0.0.0, 0}` instead of the original
packet, refuting the claimed round-trip identity for the V6 case. -/
theorem claim4_v6_roundtrip_fails :
    Packet.write (.peerDiscover (.v6 [0,0,0,0,0,0,0,0,0,0,0,0,0,0,0,1]) 5000)
      = some [2, 0,0,0,0,0,0,0,0,0,0,0,0,0,0,0,1, 19, 136] ∧
    Packet.read [2, 0,0,0,0,0,0,0,0,0,0,0,0,0,0,0,1, 19, 136]
      = some (.peerDiscover (.v4 0 0 0 0) 0) ∧
    (Packet.peerDiscover (.v4 0 0 0 0) 0)
      ≠ .peerDiscover (.v6 [0,0,0,0,0,0,0,0,0,0,0,0,0,0,0,1]) 5000 := by
  decide

end Proto

namespace Pfs

/-- Block size for partial files (src/pfs/file.rs line 14). -/
def BLOCK_LEN : Nat := 4096

/-- Little-endian `u64` read of 8 bytes at `off` (byteorder `read_u64::<LE>`);
bytes past the end of the file read as 0. -/
def readU64LE (bytes : List Nat) (off : Nat) : Nat :=
  bytes.getD off 0 +
  bytes.getD (off+1) 0 * 256 +
  bytes.getD (off+2) 0 * 256^2 +
  bytes.getD (off+3) 0 * 256^3 +
  bytes.getD (off+4) 0 * 256^4 +
  bytes.getD (off+5) 0 * 256^5 +
  bytes.getD (off+6) 0 * 256^6 +
  bytes.getD (off+7) 0 * 256^7

/-- Little-endian `u64` write (byteorder `write_u64::<LE>`). -/
def writeU64LE (v : Nat) : List Nat :=
  [v % 256, v / 256 % 256, v / 256^2 % 256, v / 256^3 % 256,
   v / 256^4 % 256, v / 256^5 % 256, v / 256^6 % 256, v / 256^7 % 256]

/-- The bytes `flush_partial` writes starting at offset `size`
(src/pfs/file.rs lines 148-177): `size`, `range_count`, the `(from, to)`
pairs, then the total footer length including itself
(`16 + 16·count + 8`). -/
def footerBytes (size : Nat) (ranges : List (Nat × Nat)) : List Nat :=
  writeU64LE size ++ writeU64LE ranges.length ++
  (ranges.map (fun r => writeU64LE r.1 ++ writeU64LE r.2)).flatten ++
  writeU64LE (16 + 16 * ranges.length + 8)

/-- The on-disk contents after `PartialFile::create(path, size, filler)`
(src/pfs/file.rs lines 86-96): a fresh file, footer written at offset
`size` (the preceding hole reads as zeros). -/
def createBytes (size : Nat) : List Nat :=
  List.replicate size 0 ++ footerBytes size []

/-- `PartialMode` (src/pfs/file.rs lines 35-47); the tracker's `u64` block
indices are embedded into `Int` like the rest of the `RangeVec` model. -/
inductive Mode where
  | part (blocks : List (Int × Int))
  | full
deriving DecidableEq

/-- `PartialMode::is_partial`. -/
def Mode.isPart : Mode → Bool
  | .part _ => true
  | .full => false

/-- The range-parsing loop of `PartialFile::open` (src/pfs/file.rs lines
122-126): read `count` little-endian `(from, to)` pairs starting at `off`
and `push` each into the tracker. -/
def parseRanges (bytes : List Nat) : Nat → Nat → List (Int × Int) → List (Int × Int)
  | _, 0, blocks => blocks
  | off, n+1, blocks =>
    parseRanges bytes (off + 16) n
      (Range.push blocks (readU64LE bytes off) (readU64LE bytes (off + 8)))

/-- `PartialFile::open` (src/pfs/file.rs lines 98-146) as a function of the
on-disk bytes, returning the resulting mode and the resulting `size` field.
Footer reads: `footer_length` from the last 8 bytes, `size` at
`file_len - footer_length`, then `ranges_count` and the pairs after it.
The governing condition is transcribed exactly as in the source:
ranges are parsed when `expected_ranges_size != actual_ranges_size`. -/
def openFile (bytes : List Nat) : Mode × Nat :=
  let file_len := bytes.length
  let footer_length := readU64LE bytes (file_len - 8)
  let size := readU64LE bytes (file_len - footer_length)
  let isPart := size + footer_length == file_len
  let mode :=
    if isPart then
      let ranges_count := readU64LE bytes (file_len - footer_length + 8)
      let expected_ranges_size := ranges_count * 16
      let actual_ranges_size := footer_length - 24
      if expected_ranges_size ≠ actual_ranges_size then
        Mode.part (parseRanges bytes (file_len - footer_length + 16) ranges_count [])
      else
        Mode.full
    else
      Mode.full
  (mode, if mode.isPart then size else file_len)

/-- C2: refuted at a well-formed footer.  `PartialFile::open` parses the
stored ranges exactly when the declared range-byte length does NOT equal
the remaining footer bytes (src/pfs/file.rs line 121 tests `!=`), the
opposite of the claim; this contradicts the source's own comment ("Test if
the remaining header length is strictly equal...") and `flush_partial`,
which always writes footers for which the two lengths are equal.
First input: a self-consistent footer (`size = 0`, no ranges,
`footer_length = 24`) whose lengths match — treated as `Full`.
Second input: the same footer padded with 8 junk bytes so that the lengths
do not match — parsed as partial. -/
theorem claim2_open_polarity_inverted :
    openFile (writeU64LE 0 ++ writeU64LE 0 ++ writeU64LE 24)
      = (Mode.full, 24) ∧
    openFile (writeU64LE 0 ++ writeU64LE 0 ++ writeU64LE 99 ++ writeU64LE 32)
      = (Mode.part [], 0) := by
  decide

/-- C3: refuted.  `create(path, 5, filler)` writes the 24-byte empty footer
after a 5-byte hole; reopening that file takes the `Full` branch (because
the footer's declared and actual range lengths are equal — the C2 polarity
bug), so `is_partial()` is `false` and there is no tracker, contrary to
the claimed create/open round-trip. -/
theorem claim3_create_open_reports_full :
    openFile (createBytes 5) = (Mode.full, 29) ∧
    (Mode.full).isPart = false := by
  decide

end Pfs

namespace Pfs

/-- `BlockState` (src/pfs/file.rs lines 50-59). -/
inductive BlockState where
  | unknown
  | invalid
  | valid
deriving DecidableEq

/-- `io::Error` as far as the read path distinguishes it: the
`InvalidData` kind, or any other error (represented by a code). -/
inductive IoError where
  | invalidData
  | other (code : Nat)
deriving DecidableEq

/-- The mutable state of a `Partial`-mode `PartialFile` that
`<PartialFile as Read>::read` touches: the tracker, the per-block cache
state and length, the file cursor, the dirty flag, and the logical size. -/
structure ReadState where
  blocks : List (Int × Int)
  blockState : BlockState
  blockLen : Nat
  pos : Nat
  dirty : Bool
  size : Nat
deriving DecidableEq

/-- `PartialFile::calc_block_len` (src/pfs/file.rs lines 202-211). -/
def calcBlockLen (size block : Nat) : Nat :=
  let block_offset := block * BLOCK_LEN
  if block_offset < size then
    min (size - block_offset) BLOCK_LEN
  else
    0

/-- `<PartialFile as Read>::read` in `Partial` mode (src/pfs/file.rs lines
245-305), as a state transition.  The filler call
`self.filler.provide(block, block_len, &mut writer)` is abstracted by its
outcome: `fillerRes` is its `io::Result<()>`, and `fillerWritten` is how
many bytes it pushed at the `LimitedWriter`, which caps what reaches the
file at `block_len` (so `writer.len == 0` iff `block_len` bytes got
through).  The final `self.file.read(&mut buf[..len])` is modelled as
transferring exactly `min buf_len block_len` bytes and advancing the
cursor by that amount. -/
def pfsRead (s : ReadState) (fillerRes : Except IoError Unit)
    (fillerWritten : Nat) (bufLen : Nat) : Except IoError Nat × ReadState :=
  let step : Except (IoError × ReadState) ReadState :=
    if s.blockState = BlockState.unknown then
      let block := s.pos / BLOCK_LEN
      let blockLen := calcBlockLen s.size block
      if Range.contains s.blocks (block : Int) then
        Except.ok { s with blockState := BlockState.valid, blockLen := blockLen }
      else
        -- the cursor is first seeked to the block start, and the
        -- `LimitedWriter` lets through at most `blockLen` bytes
        let written := min fillerWritten blockLen
        match fillerRes with
        | .ok _ =>
          if blockLen - written = 0 then
            -- full block: mark valid, push into the tracker, seek back;
            -- (the source does NOT touch `self.dirty` here)
            Except.ok { s with blockState := BlockState.valid, blockLen := blockLen, blocks := Range.push s.blocks (block : Int) ((block : Int) + 1) }
          else
            Except.ok { s with blockState := BlockState.invalid, blockLen := blockLen, pos := block * BLOCK_LEN + written }
        | .error e =>
          Except.error (e, { s with blockState := BlockState.invalid, blockLen := blockLen, pos := block * BLOCK_LEN + written })
    else
      Except.ok s
  match step with
  | .error (e, s1) => (.error e, s1)
  | .ok s1 =>
    if s1.blockState = BlockState.valid then
      (Except.ok (min bufLen s1.blockLen), { s1 with pos := s1.pos + min bufLen s1.blockLen })
    else
      (.error IoError.invalidData, s1)

/-- C5: refuted on the dirty flag.  For a fresh partial file of size 8192
positioned at block 0 (state `Unknown`, tracker empty, `dirty = false`),
a filler that writes exactly `block_len = 4096` bytes leaves the block
`Valid`, pushes `[0, 1)` into the tracker and restores the cursor — but
`read` never sets `self.dirty` (src/pfs/file.rs lines 272-277), so the
dirty flag stays `false` and the `Drop` flush (lines 225-231) will never
persist the fill, contradicting both the claim and the documented purpose
of the `dirty` field.  (`bufLen = 0` so the subsequent data transfer does
not move the cursor.) -/
theorem claim5_fill_leaves_dirty_false :
    pfsRead { blocks := [], blockState := .unknown, blockLen := 0, pos := 0,
              dirty := false, size := 8192 } (.ok ()) 4096 0
      = (.ok 0, { blocks := [(0, 1)], blockState := .valid, blockLen := 4096,
                  pos := 0, dirty := false, size := 8192 }) :=
  rfl

end Pfs

namespace Pfs

/-- C8 (amended): when the current block is `Unknown` and not in the
tracker, a filler that writes fewer than `block_len` bytes without error,
or that returns an error, leaves the block `Invalid` and the tracker
unchanged, and the read fails — with the invalid-data error in the
short-write case, and with the filler's own error (not necessarily of the
invalid-data class) in the error case (src/pfs/file.rs lines 278-296). -/
theorem claim8_failed_fill (s : ReadState) (fres : Except IoError Unit)
    (fw bufLen : Nat)
    (hunk : s.blockState = .unknown)
    (hnot : Range.contains s.blocks ((s.pos / BLOCK_LEN : Nat) : Int) = false)
    (hshort : (fres = .ok () ∧ fw < calcBlockLen s.size (s.pos / BLOCK_LEN)) ∨
      ∃ e, fres = .error e) :
    (pfsRead s fres fw bufLen).2.blockState = .invalid ∧
    (pfsRead s fres fw bufLen).2.blocks = s.blocks ∧
    (pfsRead s fres fw bufLen).1 =
      Except.error (match fres with
        | .ok _ => IoError.invalidData
        | .error e => e) := by
  unfold pfsRead
  rw [if_pos hunk]
  dsimp only
  rw [if_neg (by rw [hnot]; exact Bool.false_ne_true)]
  rcases hshort with ⟨hok, hlt⟩ | ⟨e, herr⟩
  · subst hok
    dsimp only
    have hmin : min fw (calcBlockLen s.size (s.pos / BLOCK_LEN)) = fw :=
      min_eq_left (le_of_lt hlt)
    rw [hmin]
    rw [if_neg (by omega)]
    dsimp only
    rw [if_neg (by intro h; exact BlockState.noConfusion h)]
    exact ⟨rfl, rfl, rfl⟩
  · subst herr
    dsimp only
    exact ⟨rfl, rfl, rfl⟩

/-- Witness for C8 (amended) at a fresh partial file whose filler writes
5 of the 4096 required bytes. -/
theorem claim8_witness :
    ((Except.ok () : Except IoError Unit) = .ok () ∧ 5 < calcBlockLen 8192 (0 / BLOCK_LEN)) ∧
    (pfsRead { blocks := [], blockState := .unknown, blockLen := 0, pos := 0,
               dirty := false, size := 8192 } (.ok ()) 5 0).2.blockState = .invalid ∧
    (pfsRead { blocks := [], blockState := .unknown, blockLen := 0, pos := 0,
               dirty := false, size := 8192 } (.ok ()) 5 0).2.blocks = [] ∧
    (pfsRead { blocks := [], blockState := .unknown, blockLen := 0, pos := 0,
               dirty := false, size := 8192 } (.ok ()) 5 0).1
      = Except.error IoError.invalidData :=
  ⟨⟨rfl, by decide⟩,
    (claim8_failed_fill _ _ 5 0 rfl (by decide) (Or.inl ⟨rfl, by decide⟩)).1,
    (claim8_failed_fill _ _ 5 0 rfl (by decide) (Or.inl ⟨rfl, by decide⟩)).2.1,
    (claim8_failed_fill _ _ 5 0 rfl (by decide) (Or.inl ⟨rfl, by decide⟩)).2.2⟩

/-- C8 counterexample: as stated the claim requires a data-integrity
(invalid-data class) error in the filler-error case too, but `read`
propagates the filler's own error (src/pfs/file.rs line 283): a filler
failing with a non-invalid-data error makes the read return that error. -/
theorem claim8_counterexample :
    (pfsRead { blocks := [], blockState := .unknown, blockLen := 0, pos := 0,
               dirty := false, size := 8192 } (.error (.other 3)) 0 0).1
      = .error (.other 3) ∧
    (Except.error (IoError.other 3) : Except IoError Nat)
      ≠ .error .invalidData :=
  ⟨rfl, fun h => IoError.noConfusion (Except.error.inj h)⟩

end Pfs

namespace Host

/-- `PeerStatus` (src/host/mod.rs lines 286-294).  `Linked` carries the
shared connection (`Rc<Link>`), modelled by a numeric identifier. -/
inductive PeerStatus where
  | undefined
  | unlinked
  | linked (conn : Nat)
deriving DecidableEq

/-- `PeerStatus::is_undefined`. -/
def PeerStatus.isUndefined : PeerStatus → Bool
  | .undefined => true
  | _ => false

/-- `PeerStatus::upgrade` (src/host/mod.rs lines 313-321): only change the
status if the other one is more advanced. -/
def PeerStatus.upgrade : PeerStatus → PeerStatus → PeerStatus
  | .unlinked, .undefined => .unlinked
  | .linked c, .undefined => .linked c
  | .linked c, .unlinked => .linked c
  | _, other => other

/-- Position of a status in the upgrade lattice
`Linked ≻ Unlinked ≻ Undefined`. -/
def PeerStatus.rank : PeerStatus → Nat
  | .undefined => 0
  | .unlinked => 1
  | .linked _ => 2

/-- `Peer` (src/host/mod.rs lines 253-262); `last_active: Instant` is real
time and outside the model. -/
structure Peer where
  addr : Proto.IpAddr
  port : Nat
  status : PeerStatus
deriving DecidableEq

/-- `Peers` (src/host/mod.rs lines 188-191): the `HashMap` keyed by
`(addr, port)` is modelled as an association list (entries in insertion
order), plus the cached count of `Undefined` records. -/
structure Peers where
  peers : List ((Proto.IpAddr × Nat) × Peer)
  undefinedPeersCount : Nat
deriving DecidableEq

/-- `Peers::new`. -/
def Peers.new : Peers := ⟨[], 0⟩

/-- In-place update of the first entry with the given key (the `Occupied`
arm of the `HashMap` entry API). -/
def updateFirst (k : Proto.IpAddr × Nat) (g : Peer → Peer) :
    List ((Proto.IpAddr × Nat) × Peer) → List ((Proto.IpAddr × Nat) × Peer)
  | [] => []
  | kv :: rest =>
    if kv.1 == k then (kv.1, g kv.2) :: rest
    else kv :: updateFirst k g rest

/-- `Peers::add` (src/host/mod.rs lines 202-219). -/
def Peers.add (ps : Peers) (addr : Proto.IpAddr) (port : Nat)
    (status : PeerStatus) : Peers :=
  match ps.peers.find? (fun kv => kv.1 == (addr, port)) with
  | some kv =>
    -- Occupied: `upgrade` in place; `we can't downgrade to undefined`
    let wasUndefined := kv.2.status.isUndefined
    let newStatus := kv.2.status.upgrade status
    { peers := updateFirst (addr, port)
        (fun p => { p with status := p.status.upgrade status }) ps.peers,
      undefinedPeersCount :=
        if wasUndefined && !newStatus.isUndefined
        then ps.undefinedPeersCount - 1
        else ps.undefinedPeersCount }
  | none =>
    -- Vacant: insert a fresh record
    { peers := ps.peers ++ [((addr, port), Peer.mk addr port status)],
      undefinedPeersCount :=
        if status.isUndefined
        then ps.undefinedPeersCount + 1
        else ps.undefinedPeersCount }

/-- The body of `Peers::process_undefined_peers` (src/host/mod.rs lines
226-232): the callback is applied to EVERY stored peer (there is no
per-peer status filter), decrementing the counter for each peer that
stops being `Undefined`. -/
def processPeersList (g : Peer → Peer) :
    List ((Proto.IpAddr × Nat) × Peer) → Nat →
    List ((Proto.IpAddr × Nat) × Peer) × Nat
  | [], count => ([], count)
  | kv :: rest, count =>
    let wasUndefined := kv.2.status.isUndefined
    let p := g kv.2
    let count1 := if wasUndefined && !p.status.isUndefined then count - 1 else count
    let r := processPeersList g rest count1
    ((kv.1, p) :: r.1, r.2)

/-- `Peers::process_undefined_peers` (src/host/mod.rs lines 221-234): skip
entirely when no `Undefined` peer is recorded; otherwise run the callback
over every peer. -/
def Peers.processUndefinedPeers (ps : Peers) (g : Peer → Peer) : Peers :=
  if ps.undefinedPeersCount ≠ 0 then
    let r := processPeersList g ps.peers ps.undefinedPeersCount
    { peers := r.1, undefinedPeersCount := r.2 }
  else ps

/-- Status currently recorded for a key. -/
def Peers.statusOf (ps : Peers) (addr : Proto.IpAddr) (port : Nat) :
    Option PeerStatus :=
  (ps.peers.find? (fun kv => kv.1 == (addr, port))).map (fun kv => kv.2.status)

/-- The dial closure of `Loop::tick` (src/host/mod.rs lines 122-128):
dial `(peer.addr, peer.port)`; on success send
`PeerIdentify{endpoint_port}` over the fresh link and mark the peer
`Linked` with it.  `dial` abstracts `Endpoint::add_link_to` (`some link`
on success, `none` on failure). -/
def tickDialPeer (dial : Proto.IpAddr × Nat → Option Nat) (peer : Peer) :
    Peer :=
  match dial (peer.addr, peer.port) with
  | some link => { peer with status := .linked link }
  | none => peer

/-- The dial phase of `Loop::tick` (src/host/mod.rs line 122):
`peers.process_undefined_peers(|peer| ...)` with the dial closure. -/
def tickDialPhase (dial : Proto.IpAddr × Nat → Option Nat) (ps : Peers) :
    Peers :=
  ps.processUndefinedPeers (tickDialPeer dial)

/-- The addresses `Loop::tick` attempts to dial: the closure's first
statement calls `endpoint.add_link_to(peer.new_socket_addr())`
unconditionally, and `process_undefined_peers` invokes the closure on
every stored peer whenever `undefined_peers_count != 0` — so a tick dials
every known peer in that case, and none otherwise. -/
def tickDialAttempts (ps : Peers) : List (Proto.IpAddr × Nat) :=
  if ps.undefinedPeersCount ≠ 0 then
    ps.peers.map (fun kv => (kv.2.addr, kv.2.port))
  else
    []

end Host

namespace Host

theorem find?_updateFirst (k : Proto.IpAddr × Nat) (g : Peer → Peer) :
    ∀ l : List ((Proto.IpAddr × Nat) × Peer),
    (updateFirst k g l).find? (fun kv => kv.1 == k)
      = (l.find? (fun kv => kv.1 == k)).map (fun kv => (kv.1, g kv.2)) := by
  intro l
  induction l with
  | nil => rfl
  | cons kv rest ih =>
    by_cases h : (kv.1 == k) = true
    · unfold updateFirst
      rw [if_pos h]
      simp only [List.find?, h, Option.map]
    · simp only [Bool.not_eq_true] at h
      unfold updateFirst
      rw [if_neg (by simp [h])]
      simp only [List.find?, h]
      exact ih

/-- The status recorded after `Peers::add`: the upgrade of the previous
status when the key was present, the given status otherwise. -/
theorem statusOf_add (ps : Peers) (addr : Proto.IpAddr) (port : Nat)
    (s : PeerStatus) :
    (ps.add addr port s).statusOf addr port =
      some (match ps.statusOf addr port with
        | some old => old.upgrade s
        | none => s) := by
  unfold Peers.add Peers.statusOf
  rcases hf : ps.peers.find? (fun kv => kv.1 == (addr, port)) with _ | kv <;>
    rw [hf] <;> dsimp only
  · rw [List.find?_append, hf]
    rw [List.find?_cons_of_pos _ (by simp)]
    rfl
  · rw [find?_updateFirst, hf]
    rfl

theorem upgrade_of_lower (old s : PeerStatus) (h : s.rank < old.rank) :
    old.upgrade s = old := by
  cases old <;> cases s <;>
    simp [PeerStatus.rank, PeerStatus.upgrade] at h ⊢

theorem rank_upgrade_ge (old s : PeerStatus) :
    old.rank ≤ (old.upgrade s).rank := by
  cases old <;> cases s <;> simp [PeerStatus.rank, PeerStatus.upgrade]

theorem upgrade_undefined (old s : PeerStatus)
    (h : (old.upgrade s).isUndefined = true) : old.isUndefined = true := by
  cases old <;> cases s <;>
    simp [PeerStatus.upgrade, PeerStatus.isUndefined] at h ⊢

/-- C6: the peer status lattice never regresses under `Peers::add`.
Adding a status of strictly lower rank to an existing entry leaves the
recorded status (including the stored connection) unchanged; the recorded
rank is monotone under every `add`; and the two concrete sequences from
the spec behave as claimed. -/
theorem claim6_status_never_downgrades :
    (∀ (ps : Peers) (addr : Proto.IpAddr) (port : Nat) (s old : PeerStatus),
      ps.statusOf addr port = some old →
      s.rank < old.rank →
      (ps.add addr port s).statusOf addr port = some old) ∧
    (∀ (ps : Peers) (addr : Proto.IpAddr) (port : Nat) (s old : PeerStatus),
      ps.statusOf addr port = some old →
      ∃ n, (ps.add addr port s).statusOf addr port = some n ∧
        old.rank ≤ n.rank) ∧
    ((((Peers.new.add (.v4 10 0 0 1) 80 .undefined).add
        (.v4 10 0 0 1) 80 .unlinked).add
        (.v4 10 0 0 1) 80 .undefined).statusOf (.v4 10 0 0 1) 80
      = some .unlinked) ∧
    (((Peers.new.add (.v4 10 0 0 1) 80 (.linked 7)).add
        (.v4 10 0 0 1) 80 .unlinked).statusOf (.v4 10 0 0 1) 80
      = some (.linked 7)) := by
  refine ⟨?_, ?_, by decide, by decide⟩
  · intro ps addr port s old h hrank
    rw [statusOf_add, h]
    dsimp only
    rw [upgrade_of_lower old s hrank]
  · intro ps addr port s old h
    refine ⟨old.upgrade s, ?_, rank_upgrade_ge old s⟩
    rw [statusOf_add, h]

/-- Witness for C6: adding `Undefined` on top of a recorded `Linked(7)`
entry leaves it untouched. -/
theorem claim6_witness :
    ((Peers.new.add (.v4 10 0 0 1) 80 (.linked 7)).statusOf
      (.v4 10 0 0 1) 80 = some (.linked 7)) ∧
    (PeerStatus.undefined.rank < (PeerStatus.linked 7).rank) ∧
    (((Peers.new.add (.v4 10 0 0 1) 80 (.linked 7)).add
        (.v4 10 0 0 1) 80 .undefined).statusOf (.v4 10 0 0 1) 80
      = some (.linked 7)) :=
  ⟨by decide, by decide,
    claim6_status_never_downgrades.1
      (Peers.new.add (.v4 10 0 0 1) 80 (.linked 7))
      (.v4 10 0 0 1) 80 .undefined (.linked 7) (by decide) (by decide)⟩

/-- C7: refuted.  The dial phase of `Loop::tick` dials peers that are not
`Undefined`: `process_undefined_peers` only checks that the global
`undefined_peers_count` is nonzero and then runs the dial closure on
EVERY stored peer (src/host/mod.rs lines 225-231), and the closure
unconditionally calls `add_link_to` (line 124).  With one `Undefined`
peer and one `Unlinked` peer, both are dialed, and the `Unlinked` peer's
status is overwritten with the fresh `Linked` connection. -/
theorem claim7_unlinked_peers_are_dialed :
    tickDialAttempts
        ((Peers.new.add (.v4 10 0 0 1) 1 .undefined).add
          (.v4 10 0 0 2) 2 .unlinked)
      = [(.v4 10 0 0 1, 1), (.v4 10 0 0 2, 2)] ∧
    (tickDialPhase (fun _ => some 9)
        ((Peers.new.add (.v4 10 0 0 1) 1 .undefined).add
          (.v4 10 0 0 2) 2 .unlinked)).statusOf (.v4 10 0 0 2) 2
      = some (.linked 9) := by
  decide

end Host

namespace Host

/-- Number of stored peers whose status is `Undefined`. -/
def undefCount (l : List ((Proto.IpAddr × Nat) × Peer)) : Nat :=
  l.countP (fun kv => kv.2.status.isUndefined)

theorem undefCount_cons (kv : (Proto.IpAddr × Nat) × Peer)
    (l : List ((Proto.IpAddr × Nat) × Peer)) :
    undefCount (kv :: l)
      = undefCount l + (if kv.2.status.isUndefined = true then 1 else 0) :=
  List.countP_cons _ _ _

theorem undefCount_updateFirst (k : Proto.IpAddr × Nat) (g : Peer → Peer) :
    ∀ (l : List ((Proto.IpAddr × Nat) × Peer)) kv,
    l.find? (fun kv => kv.1 == k) = some kv →
    undefCount (updateFirst k g l)
        + (if kv.2.status.isUndefined = true then 1 else 0)
      = undefCount l + (if (g kv.2).status.isUndefined = true then 1 else 0) := by
  intro l
  induction l with
  | nil => intro kv h; exact Option.noConfusion h
  | cons kv0 rest ih =>
    intro kv h
    by_cases h0 : (kv0.1 == k) = true
    · rw [List.find?_cons_of_pos (p := fun kv => kv.1 == k) rest h0] at h
      cases Option.some.inj h
      unfold updateFirst
      rw [if_pos h0, undefCount_cons, undefCount_cons]
      dsimp only
      omega
    · rw [List.find?_cons_of_neg (p := fun kv => kv.1 == k) rest h0] at h
      unfold updateFirst
      rw [if_neg h0, undefCount_cons, undefCount_cons]
      have := ih kv h
      omega

/-- One unfolding step of `processPeersList`. -/
theorem processPeersList_cons (g : Peer → Peer)
    (kv : (Proto.IpAddr × Nat) × Peer)
    (rest : List ((Proto.IpAddr × Nat) × Peer)) (c : Nat) :
    processPeersList g (kv :: rest) c =
      ((kv.1, g kv.2) ::
        (processPeersList g rest
          (if (kv.2.status.isUndefined && !(g kv.2).status.isUndefined) = true
           then c - 1 else c)).1,
       (processPeersList g rest
          (if (kv.2.status.isUndefined && !(g kv.2).status.isUndefined) = true
           then c - 1 else c)).2) := rfl

theorem processPeersList_count (g : Peer → Peer)
    (hg : ∀ p, (g p).status.isUndefined = true → p.status.isUndefined = true) :
    ∀ (l : List ((Proto.IpAddr × Nat) × Peer)) (c : Nat), undefCount l ≤ c →
    (processPeersList g l c).2 + undefCount l
      = c + undefCount (processPeersList g l c).1 := by
  intro l
  induction l with
  | nil =>
    intro c h
    simp [processPeersList, undefCount]
  | cons kv rest ih =>
    intro c h
    rw [undefCount_cons] at h
    rw [processPeersList_cons]
    dsimp only
    rw [undefCount_cons, undefCount_cons]
    dsimp only
    by_cases hwas : kv.2.status.isUndefined = true
    · by_cases hnow : (g kv.2).status.isUndefined = true
      · have hih := ih c (by rw [hwas] at h; omega)
        rw [hwas] at h
        simp [hwas, hnow]
        omega
      · simp only [Bool.not_eq_true] at hnow
        simp [hwas] at h
        have hih := ih (c - 1) (by omega)
        simp [hwas, hnow]
        omega
    · have hnow : (g kv.2).status.isUndefined = false := by
        rcases hb : (g kv.2).status.isUndefined with _ | _
        · rfl
        · exact absurd (hg kv.2 hb) hwas
      simp only [Bool.not_eq_true] at hwas
      have hih := ih c (by rw [hwas] at h; omega)
      rw [hwas] at h
      simp [hwas, hnow]
      omega

/-- C10: `undefined_peers_count` counts exactly the `Undefined` entries:
it does so in a fresh `Peers`, the equality is preserved by every
`Peers::add`, and by every `process_undefined_peers` whose callback never
turns a peer's status into `Undefined`. -/
theorem claim10_undefined_count_invariant :
    (Peers.new.undefinedPeersCount = undefCount Peers.new.peers) ∧
    (∀ (ps : Peers) (addr : Proto.IpAddr) (port : Nat) (s : PeerStatus),
      ps.undefinedPeersCount = undefCount ps.peers →
      (ps.add addr port s).undefinedPeersCount
        = undefCount (ps.add addr port s).peers) ∧
    (∀ (ps : Peers) (g : Peer → Peer),
      ps.undefinedPeersCount = undefCount ps.peers →
      (∀ p, (g p).status.isUndefined = true → p.status.isUndefined = true) →
      (ps.processUndefinedPeers g).undefinedPeersCount
        = undefCount (ps.processUndefinedPeers g).peers) := by
  refine ⟨rfl, ?_, ?_⟩
  · intro ps addr port s h
    unfold Peers.add
    rcases hf : ps.peers.find? (fun kv => kv.1 == (addr, port)) with _ | kv <;>
      rw [hf] <;> dsimp only
    · -- Vacant : append a fresh record
      unfold undefCount at *
      rw [List.countP_append]
      by_cases hs : s.isUndefined = true
      · rw [if_pos hs]
        simp [List.countP_cons, hs]
        omega
      · rw [if_neg hs]
        simp only [Bool.not_eq_true] at hs
        simp [List.countP_cons, hs]
        omega
    · -- Occupied : in-place upgrade
      have hcnt := undefCount_updateFirst (addr, port)
        (fun p => { p with status := p.status.upgrade s }) ps.peers kv hf
      dsimp only at hcnt
      by_cases hwas : kv.2.status.isUndefined = true
      · by_cases hnew : (kv.2.status.upgrade s).isUndefined = true
        · simp [hwas, hnew] at hcnt ⊢
          omega
        · simp only [Bool.not_eq_true] at hnew
          simp [hwas, hnew] at hcnt ⊢
          omega
      · have hnew : (kv.2.status.upgrade s).isUndefined = false := by
          rcases hb : (kv.2.status.upgrade s).isUndefined with _ | _
          · rfl
          · exact absurd (upgrade_undefined _ _ hb) hwas
        simp only [Bool.not_eq_true] at hwas
        simp [hwas, hnew] at hcnt ⊢
        omega
  · intro ps g h hg
    unfold Peers.processUndefinedPeers
    by_cases hc : ps.undefinedPeersCount ≠ 0
    · rw [if_pos hc]
      dsimp only
      have := processPeersList_count g hg ps.peers ps.undefinedPeersCount
        (le_of_eq h.symm)
      omega
    · rw [if_neg hc]
      exact h

/-- Witness for C10: one `add` and one `process_undefined_peers` (whose
callback links every peer) on a concrete directory. -/
theorem claim10_witness :
    ((Peers.new.add (.v4 10 0 0 1) 1 .undefined).undefinedPeersCount
      = undefCount (Peers.new.add (.v4 10 0 0 1) 1 .undefined).peers) ∧
    (((Peers.new.add (.v4 10 0 0 1) 1 .undefined).processUndefinedPeers
        (fun p => { p with status := .linked 5 })).undefinedPeersCount
      = undefCount ((Peers.new.add (.v4 10 0 0 1) 1 .undefined).processUndefinedPeers
        (fun p => { p with status := .linked 5 })).peers) :=
  ⟨claim10_undefined_count_invariant.2.1 Peers.new (.v4 10 0 0 1) 1 .undefined rfl,
    claim10_undefined_count_invariant.2.2
      (Peers.new.add (.v4 10 0 0 1) 1 .undefined)
      (fun p => { p with status := .linked 5 })
      (by decide)
      (fun p hp => Bool.noConfusion hp)⟩

end Host
